import Mathlib

/-! Shallow embedding of the PrismLinux ISO build scripts
(scripts/build.py and scripts/format.py).

Strings from the Python side are embedded as `List Char` (a Python `str`
is a sequence of code points), file bytes as `List Nat` with every byte
below 256, environment variables as association lists, and the scanned
output directory as a list of entries carrying name, mtime and content.
Filesystem and process errors that Python surfaces as exceptions are
modelled as explicit outcome parameters.
-/

/-! Section: SHA-256, the embedding of hashlib.sha256 as used by generate_checksum. -/

/-- Truncation of a natural number to a 32-bit word. -/
def w32 (n : Nat) : Nat := n % 4294967296

/-- Addition modulo 2^32. -/
def add32 (a b : Nat) : Nat := (a + b) % 4294967296

/-- Right rotation of a 32-bit word by k bits. -/
def rotr32 (k x : Nat) : Nat := ((x >>> k) ||| (x <<< (32 - k))) % 4294967296

/-- Three-way xor. -/
def xor3 (a b c : Nat) : Nat := Nat.xor (Nat.xor a b) c

def bigSigma0 (x : Nat) : Nat := xor3 (rotr32 2 x) (rotr32 13 x) (rotr32 22 x)

def bigSigma1 (x : Nat) : Nat := xor3 (rotr32 6 x) (rotr32 11 x) (rotr32 25 x)

def smallSigma0 (x : Nat) : Nat := xor3 (rotr32 7 x) (rotr32 18 x) (x >>> 3)

def smallSigma1 (x : Nat) : Nat := xor3 (rotr32 17 x) (rotr32 19 x) (x >>> 10)

/-- SHA-256 choice function; the complement of x is taken inside 32 bits. -/
def chFn (x y z : Nat) : Nat := Nat.xor (Nat.land x y) (Nat.land (Nat.xor x 4294967295) z)

def majFn (x y z : Nat) : Nat := Nat.xor (Nat.xor (Nat.land x y) (Nat.land x z)) (Nat.land y z)

/-- The 64 SHA-256 round constants of FIPS 180-4 (hex 428a2f98, 71374491,
and so on), written in decimal. -/
def sha256K : List Nat :=
  [1116352408, 1899447441, 3049323471, 3921009573, 961987163,
   1508970993, 2453635748, 2870763221, 3624381080, 310598401,
   607225278, 1426881987, 1925078388, 2162078206, 2614888103,
   3248222580, 3835390401, 4022224774, 264347078, 604807628,
   770255983, 1249150122, 1555081692, 1996064986, 2554220882,
   2821834349, 2952996808, 3210313671, 3336571891, 3584528711,
   113926993, 338241895, 666307205, 773529912, 1294757372,
   1396182291, 1695183700, 1986661051, 2177026350, 2456956037,
   2730485921, 2820302411, 3259730800, 3345764771, 3516065817,
   3600352804, 4094571909, 275423344, 430227734, 506948616,
   659060556, 883997877, 958139571, 1322822218, 1537002063,
   1747873779, 1955562222, 2024104815, 2227730452, 2361852424,
   2428436474, 2756734187, 3204031479, 3329325298]

/-- The SHA-256 initial hash value of FIPS 180-4 (hex 6a09e667, bb67ae85,
and so on), written in decimal. -/
def sha256H0 : List Nat :=
  [1779033703, 3144134277, 1013904242, 2773480762,
   1359893119, 2600822924, 528734635, 1541459225]

/-- Next word of the message schedule, computed from the already built words. -/
def nextScheduleWord (ws : List Nat) : Nat :=
  let n := ws.length
  w32 (smallSigma1 (ws.getD (n - 2) 0) + ws.getD (n - 7) 0 +
       smallSigma0 (ws.getD (n - 15) 0) + ws.getD (n - 16) 0)

/-- Extend the 16 block words by `fuel` schedule words. -/
def buildSchedule : Nat → List Nat → List Nat
  | 0, ws => ws
  | fuel + 1, ws => buildSchedule fuel (ws ++ [nextScheduleWord ws])

structure Sha256Regs where
  a : Nat
  b : Nat
  c : Nat
  d : Nat
  e : Nat
  f : Nat
  g : Nat
  h : Nat

/-- One SHA-256 compression round; `kw` pairs the round constant with the schedule word. -/
def sha256Round (st : Sha256Regs) (kw : Nat × Nat) : Sha256Regs :=
  let t1 := w32 (st.h + bigSigma1 st.e + chFn st.e st.f st.g + kw.1 + kw.2)
  let t2 := w32 (bigSigma0 st.a + majFn st.a st.b st.c)
  { a := add32 t1 t2, b := st.a, c := st.b, d := st.c,
    e := add32 st.d t1, f := st.e, g := st.f, h := st.g }

/-- Compress one 16-word block into the running 8-word hash state. -/
def compressBlock (h : List Nat) (block : List Nat) : List Nat :=
  let w := buildSchedule 48 block
  let st0 : Sha256Regs :=
    { a := h.getD 0 0, b := h.getD 1 0, c := h.getD 2 0, d := h.getD 3 0,
      e := h.getD 4 0, f := h.getD 5 0, g := h.getD 6 0, h := h.getD 7 0 }
  let st := (sha256K.zip w).foldl sha256Round st0
  [add32 (h.getD 0 0) st.a, add32 (h.getD 1 0) st.b, add32 (h.getD 2 0) st.c,
   add32 (h.getD 3 0) st.d, add32 (h.getD 4 0) st.e, add32 (h.getD 5 0) st.f,
   add32 (h.getD 6 0) st.g, add32 (h.getD 7 0) st.h]

/-- Big-endian byte decomposition of `v` into `n` bytes. -/
def bytesBE : Nat → Nat → List Nat
  | 0, _ => []
  | n + 1, v => bytesBE n (v / 256) ++ [v % 256]

/-- SHA-256 padding: a 0x80 byte, zeros to 56 mod 64, and the 64-bit bit length. -/
def padMessage (msg : List Nat) : List Nat :=
  let z := (119 - (msg.length % 64)) % 64
  msg ++ [128] ++ List.replicate z 0 ++ bytesBE 8 (8 * msg.length)

/-- Group bytes into big-endian 32-bit words. -/
def toWords : List Nat → List Nat
  | b0 :: b1 :: b2 :: b3 :: rest => (((b0 * 256 + b1) * 256 + b2) * 256 + b3) :: toWords rest
  | _ => []

/-- Cut a byte list into consecutive chunks of m+1 bytes (the last may be
shorter); the fuel argument, at least the length of the list, makes the
recursion structural. -/
def chunksByF (m : Nat) : Nat → List Nat → List (List Nat)
  | _, [] => []
  | 0, _ :: _ => []
  | fuel + 1, x :: xs => ((x :: xs).take (m + 1)) :: chunksByF m fuel (xs.drop m)

/-- Cut a byte list into consecutive chunks of m+1 bytes (the last may be shorter). -/
def chunksBy (m : Nat) (l : List Nat) : List (List Nat) := chunksByF m l.length l

/-- The SHA-256 digest of a byte sequence, as 32 bytes. -/
def sha256bytes (msg : List Nat) : List Nat :=
  let blocks := chunksBy 63 (padMessage msg)
  let h := blocks.foldl (fun hh b => compressBlock hh (toWords b)) sha256H0
  h.flatMap (bytesBE 4)

/-- The sixteen lowercase hexadecimal digit characters. -/
def hexDigitChars : List Char := "0123456789abcdef".toList

/-- Two lowercase hex characters for one byte. -/
def byteToHex (b : Nat) : List Char :=
  [hexDigitChars.getD (b / 16 % 16) '0', hexDigitChars.getD (b % 16) '0']

/-- Lowercase hex digest of a byte sequence (embedding of `hexdigest()`). -/
def sha256hex (msg : List Nat) : List Char := (sha256bytes msg).flatMap byteToHex

/-! Section: generate_checksum and the checksum sidecar (build.py lines 28-39 and 196-205). -/

/-- The 4096-byte read chunks of a file, embedding the loop
`for byte_block in iter(lambda: f.read(4096), b"")`. -/
def chunks4096 (fileBytes : List Nat) : List (List Nat) := chunksBy 4095 fileBytes

/-- Embedding of `sha256_hash.update(byte_block)`: the hash object state is the
byte sequence fed so far, since an incremental SHA-256 update is observably
equivalent to hashing the concatenation. -/
def hashUpdate (st : List Nat) (chunk : List Nat) : List Nat := st ++ chunk

/-- Embedding of `generate_checksum`: stream the file in 4096-byte blocks
through the hash object and return the lowercase hex digest. -/
def generate_checksum (fileBytes : List Nat) : List Char :=
  sha256hex ((chunks4096 fileBytes).foldl hashUpdate [])

/-- The text written to the sidecar file: the digest, two spaces, the base
filename of the ISO, and a newline, exactly as the f-string at line 202 writes. -/
def sidecarText (isoBytes : List Nat) (basename : List Char) : List Char :=
  generate_checksum isoBytes ++ [' ', ' '] ++ basename ++ ['\n']

/-- Code points of a text as stored file bytes (ASCII content in this pipeline). -/
def charsToBytes (s : List Char) : List Nat := s.map Char.toNat

/-! Section: the output finalizer _process_output_iso (build.py lines 160-212). -/

/-- One entry of the scanned output directory. -/
structure FsEntry where
  name : List Char
  mtime : Nat
  content : List Nat
deriving DecidableEq

/-- Embedding of the match test
`f.startswith("CrystalLinux-") and f.endswith(".iso")`. -/
def isoNameMatch (n : List Char) : Bool :=
  List.isPrefixOf "CrystalLinux-".toList n && List.isSuffixOf ".iso".toList n

/-- The entries of the output directory matching the ISO naming pattern. -/
def matchingIsos (dir : List FsEntry) : List FsEntry :=
  dir.filter (fun e => isoNameMatch e.name)

/-- Stable insertion into a list sorted by mtime descending; embeds the
behaviour of `sorted(..., key=os.path.getmtime, reverse=True)`. -/
def insertMtimeDesc (x : FsEntry) : List FsEntry → List FsEntry
  | [] => [x]
  | y :: ys => if y.mtime > x.mtime then y :: insertMtimeDesc x ys else x :: y :: ys

/-- Stable sort by modification time, most recent first. -/
def sortMtimeDesc (l : List FsEntry) : List FsEntry := l.foldr insertMtimeDesc []

/-- Embedding of `files[0]` after the descending sort: the selected artifact. -/
def selectLatestIso (dir : List FsEntry) : Option FsEntry :=
  (sortMtimeDesc (matchingIsos dir)).head?

/-- Embedding of `generate_iso_filename`, with the current build date
`datetime.now().strftime("%Y%m%d")` supplied as an input. -/
def generate_iso_filename (buildDate : List Char) : List Char :=
  "CrystalLinux-".toList ++ buildDate ++ "-x86_64.iso".toList

/-- Embedding of `os.rename`: the entry with the old name takes the new name. -/
def renameEntry (dir : List FsEntry) (oldName newName : List Char) : List FsEntry :=
  dir.map (fun e => if e.name = oldName then { e with name := newName } else e)

/-- Embedding of `_process_output_iso` over the output directory state:
select the most recently modified matching ISO, rename it to the canonical
name, write the checksum sidecar next to it, and return the final name;
on no match, leave the directory untouched and signal failure.
The sidecar entry carries mtime 0: creation time plays no further role. -/
def process_output_iso (dir : List FsEntry) (buildDate : List Char) :
    List FsEntry × Option (List Char) :=
  match selectLatestIso dir with
  | none => (dir, none)
  | some old =>
    let newIsoName := generate_iso_filename buildDate
    let dir1 := renameEntry dir old.name newIsoName
    let sidecar : FsEntry :=
      { name := newIsoName ++ ".sha256".toList, mtime := 0,
        content := charsToBytes (sidecarText old.content newIsoName) }
    (dir1 ++ [sidecar], some newIsoName)

/-! Section: profile staging _copy_archiso_profile (build.py lines 88-110).
A directory tree is a finite association list from paths (component lists)
to file contents; both staging mechanisms are functions on such trees. -/

/-- A file tree: file paths (as component lists) paired with their bytes. -/
abbrev FileTree := List (List (List Char) × List Nat)

/-- True when some component of the path is ".git", the pattern excluded by
`rsync --exclude .git` at any depth. -/
def isExcludedPath (p : List (List Char)) : Bool :=
  p.any (fun comp => comp = ".git".toList)

/-- Lookup of the content stored at a path. -/
def treeLookup (t : FileTree) (p : List (List Char)) : Option (List Nat) :=
  match t with
  | [] => none
  | e :: rest => if e.1 = p then some e.2 else treeLookup rest p

/-- Embedding of `rsync -a --delete --exclude .git src/ dest`: every
non-excluded path ends up exactly as in the source (extraneous destination
files are deleted), while excluded paths already in the destination are
neither transferred nor deleted. -/
def rsyncMirrorCopy (src dest : FileTree) : FileTree :=
  src.filter (fun e => !isExcludedPath e.1) ++ dest.filter (fun e => isExcludedPath e.1)

/-- Embedding of the fallback path: `shutil.rmtree(work_archiso_dir)` when it
exists followed by `shutil.copytree(archiso_source_dir, work_archiso_dir)`,
which copies the whole source with no exclusion. -/
def copytreeReplace (src _dest : FileTree) : FileTree := src

/-! Section: privileged command construction (build.py lines 124-127 and 223-226). -/

/-- Decimal digit characters of a natural number, as Python str() renders it. -/
def natToChars (n : Nat) : List Char := Nat.toDigits 10 n

/-- Embedding of the command built by `_run_mkarchiso`:
`["sudo", "mkarchiso"]`, `"-v"` when verbose, then
`["-w", work_dir, "-o", output_dir, work_archiso_dir]`. -/
def mkarchisoCommand (verbose : Bool) (workDir outputDir workArchisoDir : List Char) :
    List (List Char) :=
  ["sudo".toList, "mkarchiso".toList] ++ (if verbose then ["-v".toList] else [])
    ++ ["-w".toList, workDir, "-o".toList, outputDir, workArchisoDir]

/-- Embedding of the command run by `_handle_ownership`:
`["sudo", "chown", "-R", f"{uid}:{gid}", output_dir]`. -/
def chownCommand (uid gid : Nat) (outputDir : List Char) : List (List Char) :=
  ["sudo".toList, "chown".toList, "-R".toList,
   natToChars uid ++ ':' :: natToChars gid, outputDir]

/-- The privilege-escalation tokens leading a command: the longest run of
known helper names (sudo, doas) at its front. -/
def escalationTokens (cmd : List (List Char)) : List (List Char) :=
  cmd.takeWhile (fun t => t = "sudo".toList || t = "doas".toList)

/-- Modelled from the spec: the privilege resolver of section 4.1, which is
absent from src - the superuser gets an empty command, otherwise the
first helper found probing doas then sudo, and failure when neither exists. -/
def resolvePrivilegeSpec (isRoot hasDoas hasSudo : Bool) : Option (List (List Char)) :=
  if isRoot then some []
  else if hasDoas then some ["doas".toList]
  else if hasSudo then some ["sudo".toList]
  else none

/-! Section: the ownership restorer _handle_ownership (build.py lines 214-242). -/

/-- Lookup in an association-list environment. -/
def lookupEnv (env : List (List Char × List Char)) (k : List Char) : Option (List Char) :=
  match env with
  | [] => none
  | e :: rest => if e.1 = k then some e.2 else lookupEnv rest k

/-- Modelled from the spec: the detection, absent from src, of the original
unprivileged invoking user through the environment variable the escalation
helper sets (SUDO_UID). -/
def originalUserFromEnv (env : List (List Char × List Char)) : Option (List Char) :=
  lookupEnv env "SUDO_UID".toList

/-- Embedding of `_handle_ownership`. Inputs: the process environment (which
the function never reads), the effective uid and gid when `os.geteuid` and
`os.getegid` exist (none embeds the AttributeError path), whether the sudo
binary resolves (false embeds FileNotFoundError), and whether the chown child
process exits cleanly (false embeds CalledProcessError). Output: the command
invoked, if any, and the returned boolean. -/
def handle_ownership (_env : List (List Char × List Char)) (euidInfo : Option (Nat × Nat))
    (sudoFound chownOk : Bool) (outputDir : List Char) :
    Option (List (List Char)) × Bool :=
  match euidInfo with
  | none => (none, false)
  | some (uid, gid) =>
    if !sudoFound then (none, false)
    else if chownOk then (some (chownCommand uid gid outputDir), true)
    else (some (chownCommand uid gid outputDir), false)

/-! Section: path setup _parse_args and _setup_paths (build.py lines 41-72).
Absolute paths are component lists; os.path.abspath of a relative argument
is the lexically normalised join of the current working directory and the
argument, exactly what the os.path functions compute. -/

/-- Lexical normalisation of a segment sequence: "." is dropped and ".."
removes the preceding segment, as os.path.normpath resolves them. -/
def normSegs (segs : List (List Char)) : List (List Char) :=
  segs.foldl (fun acc s =>
    if s = ".".toList then acc
    else if s = "..".toList then acc.dropLast
    else acc ++ [s]) []

/-- Embedding of `os.path.abspath` on a relative path: join onto the current
working directory and normalise. -/
def abspathFrom (cwd : List (List Char)) (p : List (List Char)) : List (List Char) :=
  normSegs (cwd ++ p)

/-- The default of the --work-dir option, the relative path "../build/work". -/
def defaultWorkDirArg : List (List Char) := ["..".toList, "build".toList, "work".toList]

/-- The default of the --output-dir option, the relative path "../build/out". -/
def defaultOutputDirArg : List (List Char) := ["..".toList, "build".toList, "out".toList]

/-- The five paths `_setup_paths` returns. -/
structure SetupPaths where
  work_dir : List (List Char)
  output_dir : List (List Char)
  project_root : List (List Char)
  archiso_source_dir : List (List Char)
  work_archiso_dir : List (List Char)
deriving DecidableEq

/-- Embedding of `_setup_paths`: the work and output arguments pass through
`os.path.abspath` against the current working directory, while the script
directory chain comes from `os.path.dirname` applied to the absolute path of
the script file. Directory creation and the existence check on the profile
source are side conditions outside this path computation. -/
def setup_paths (cwd scriptFile : List (List Char)) (workArg outArg : List (List Char)) :
    SetupPaths :=
  let workDir := abspathFrom cwd workArg
  let outputDir := abspathFrom cwd outArg
  let scriptDir := scriptFile.dropLast
  let isoDir := scriptDir.dropLast
  { work_dir := workDir, output_dir := outputDir, project_root := isoDir.dropLast,
    archiso_source_dir := isoDir ++ ["archiso".toList],
    work_archiso_dir := workDir ++ ["archiso".toList] }

/-! Section: the build invoker _run_mkarchiso (build.py lines 112-158),
reduced to its working-directory discipline. -/

/-- The ways the guarded block of `_run_mkarchiso` can leave: a child exit
status, one of the two caught exception classes, or any other exception. -/
inductive BuilderOutcome where
  | exited (code : Nat)
  | calledProcessError
  | osError
  | otherException
deriving DecidableEq

/-- Python exception classes relevant to `_run_mkarchiso`. -/
inductive PyExn where
  | calledProcess
  | osErr
  | other
deriving DecidableEq

/-- The process-wide mutable state the function touches: the working directory. -/
structure ProcState where
  cwd : List (List Char)
deriving DecidableEq

/-- The try-block body: `os.chdir(project_root)`, then the builder runs; a zero
exit status yields True, a non-zero one False, and exceptions propagate. -/
def mkarchisoBody (projectRoot : List (List Char)) (outcome : BuilderOutcome)
    (_s : ProcState) : ProcState × Except PyExn Bool :=
  let s1 : ProcState := { cwd := projectRoot }
  match outcome with
  | .exited code => (s1, Except.ok (code == 0))
  | .calledProcessError => (s1, Except.error PyExn.calledProcess)
  | .osError => (s1, Except.error PyExn.osErr)
  | .otherException => (s1, Except.error PyExn.other)

/-- A try/finally combinator: the cleanup runs on the state the body leaves,
whether the body returned or raised. -/
def tryFinallyState (body : ProcState → ProcState × Except PyExn Bool)
    (cleanup : ProcState → ProcState) (s : ProcState) : ProcState × Except PyExn Bool :=
  let r := body s
  (cleanup r.1, r.2)

/-- The two except clauses of `_run_mkarchiso`: CalledProcessError and OSError
are converted to a False return; other exceptions keep propagating. -/
def mkarchisoHandlers (r : Except PyExn Bool) : Except PyExn Bool :=
  match r with
  | Except.ok b => Except.ok b
  | Except.error PyExn.calledProcess => Except.ok false
  | Except.error PyExn.osErr => Except.ok false
  | Except.error e => Except.error e

/-- Embedding of `_run_mkarchiso`: record the original working directory, run
the body under a finally clause that restores it, and apply the except
clauses to the outcome. -/
def run_mkarchiso (projectRoot : List (List Char)) (outcome : BuilderOutcome)
    (s : ProcState) : ProcState × Except PyExn Bool :=
  let originalCwd := s.cwd
  let r := tryFinallyState (mkarchisoBody projectRoot outcome)
    (fun s1 => { s1 with cwd := originalCwd }) s
  (r.1, mkarchisoHandlers r.2)

/-! Section: the format utility format_packages (format.py lines 5-34). -/

/-- Split a character sequence at every newline; the result always has one
more chunk than there are newlines, so it is never empty. -/
def splitOnNl : List Char → List (List Char)
  | [] => [[]]
  | c :: cs =>
    let r := splitOnNl cs
    if c = '\n' then [] :: r
    else
      match r with
      | [] => [[c]]
      | h :: t => (c :: h) :: t

/-- Embedding of `str.splitlines` for newline-separated text: the chunks
between newlines, with no trailing empty chunk when the text ends in a
newline and no chunk at all for empty text. -/
def pySplitlines (s : List Char) : List (List Char) :=
  if s = [] then []
  else if s.getLast? = some '\n' then (splitOnNl s).dropLast
  else splitOnNl s

/-- Embedding of `str.strip()`: drop whitespace from both ends. -/
def stripChars (s : List Char) : List Char :=
  ((s.dropWhile Char.isWhitespace).reverse.dropWhile Char.isWhitespace).reverse

/-- The comprehension at format.py line 18: each line stripped, blank lines
dropped. -/
def stripNonEmptyLines (s : List Char) : List (List Char) :=
  ((pySplitlines s).map stripChars).filter (fun l => l ≠ [])

/-- Embedding of `list(set(packages))` up to order: each distinct line once.
The order chosen keeps the last occurrence; the subsequent sort makes the
end result independent of it. -/
def dedupLines : List (List Char) → List (List Char)
  | [] => []
  | x :: xs => if x ∈ xs then dedupLines xs else x :: dedupLines xs

/-- Python string comparison: lexicographic on code points. -/
def leStr : List Char → List Char → Bool
  | [], _ => true
  | _ :: _, [] => false
  | a :: as, b :: bs =>
    if a.toNat < b.toNat then true
    else if b.toNat < a.toNat then false
    else leStr as bs

/-- Insertion into a list sorted ascending by `leStr`. -/
def insertStr (x : List Char) : List (List Char) → List (List Char)
  | [] => [x]
  | y :: ys => if leStr x y then x :: y :: ys else y :: insertStr x ys

/-- Embedding of `sorted` on strings: ascending lexicographic sort. -/
def sortStrs (l : List (List Char)) : List (List Char) := l.foldr insertStr []

/-- Embedding of `"\n".join(...)`. -/
def joinNl : List (List Char) → List Char
  | [] => []
  | [l] => l
  | l :: ls => l ++ '\n' :: joinNl ls

/-- The line list format.py writes back: stripped non-blank lines,
deduplicated, sorted ascending. -/
def formatLines (s : List Char) : List (List Char) :=
  sortStrs (dedupLines (stripNonEmptyLines s))

/-- The full rewritten file content: the joined lines plus the final
newline appended at format.py line 28. -/
def formatContent (s : List Char) : List Char :=
  joinNl (formatLines s) ++ ['\n']

/-- Embedding of `format_packages` on the state of the target file: a missing
file (none) is reported as file-not-found (False) and left missing, an
existing file is rewritten in place and success (True) reported. -/
def format_packages (file : Option (List Char)) : Option (List Char) × Bool :=
  match file with
  | none => (none, false)
  | some s => (some (formatContent s), true)

/-! Theorems. Claim theorems are named claim_Cn with suffixes for amended
statements, counterexamples and witnesses. -/

/-- C9: on every exit path of the build invoker - success, non-zero builder
exit, a caught exception (CalledProcessError, OSError), or a propagating
exception - the process working directory, temporarily switched to the
project root for the builder invocation, is restored to its original value
before `run_mkarchiso` returns. -/
theorem claim_C9_cwd_restored (projectRoot : List (List Char)) (outcome : BuilderOutcome)
    (s : ProcState) : ((run_mkarchiso projectRoot outcome s).1).cwd = s.cwd := by
  cases outcome <;> rfl

/-- C2 counterexample: the privilege resolver the spec describes returns an
empty command for the superuser, yet the commands the code builds open
with the fixed sudo token unconditionally, so a privileged invocation is
not prefixed with the resolved helper. -/
theorem claim_C2_counterexample :
    resolvePrivilegeSpec true true true = some [] ∧
    escalationTokens (mkarchisoCommand false "w".toList "o".toList "p".toList)
      = ["sudo".toList] ∧
    escalationTokens (chownCommand 0 0 "out".toList) = ["sudo".toList] ∧
    ["sudo".toList] ≠ ([] : List (List Char)) := by
  refine ⟨rfl, rfl, rfl, by decide⟩

/-- C2 amended: every privileged invocation the code builds - the mkarchiso
call and the chown call - is prefixed with the single fixed token sudo,
whatever the arguments; no helper probing and no superuser special case
exist. -/
theorem claim_C2_amended (verbose : Bool) (w o p d : List Char) (uid gid : Nat) :
    escalationTokens (mkarchisoCommand verbose w o p) = ["sudo".toList] ∧
    escalationTokens (chownCommand uid gid d) = ["sudo".toList] := by
  constructor
  · cases verbose <;> rfl
  · rfl

/-- C7 counterexample: with an environment holding no original-user
identifier at all, the ownership restorer still issues a chown - to the
current effective user 0:0 - instead of the no-op the claim requires. -/
theorem claim_C7_counterexample :
    originalUserFromEnv [] = none ∧
    (handle_ownership [] (some (0, 0)) true true "out".toList).1
      = some (chownCommand 0 0 "out".toList) ∧
    (handle_ownership [] (some (0, 0)) true true "out".toList).1 ≠ none := by
  refine ⟨rfl, rfl, by decide⟩

/-- C7 amended: the ownership restorer never reads the environment - its
result is the same under any environment; it targets the current effective
uid:gid through an unconditional sudo chown, and when the effective ids are
unavailable it performs no ownership change and returns failure (False),
not success. -/
theorem claim_C7_amended (env env2 : List (List Char × List Char))
    (euidInfo : Option (Nat × Nat)) (sudoFound chownOk : Bool)
    (uid gid : Nat) (d : List Char) :
    handle_ownership env euidInfo sudoFound chownOk d
      = handle_ownership env2 euidInfo sudoFound chownOk d ∧
    handle_ownership env none sudoFound chownOk d = (none, false) ∧
    handle_ownership env (some (uid, gid)) true true d
      = (some (chownCommand uid gid d), true) :=
  ⟨rfl, rfl, rfl⟩

/-- C8 counterexample: with the script at one fixed location, two different
process working directories resolve the default work directory to two
different absolute paths, so the defaults are not resolved against the
script location. -/
theorem claim_C8_counterexample :
    (setup_paths ["home".toList, "alice".toList, "work".toList]
       ["srv".toList, "PrismLinux".toList, "ISO".toList, "scripts".toList, "build.py".toList]
       defaultWorkDirArg defaultOutputDirArg).work_dir
      ≠ (setup_paths ["home".toList, "bob".toList, "work".toList]
       ["srv".toList, "PrismLinux".toList, "ISO".toList, "scripts".toList, "build.py".toList]
       defaultWorkDirArg defaultOutputDirArg).work_dir ∧
    (setup_paths ["home".toList, "alice".toList, "work".toList]
       ["srv".toList, "PrismLinux".toList, "ISO".toList, "scripts".toList, "build.py".toList]
       defaultWorkDirArg defaultOutputDirArg).archiso_source_dir
      = (setup_paths ["home".toList, "bob".toList, "work".toList]
       ["srv".toList, "PrismLinux".toList, "ISO".toList, "scripts".toList, "build.py".toList]
       defaultWorkDirArg defaultOutputDirArg).archiso_source_dir := by
  refine ⟨by decide, rfl⟩

/-- C8 amended: the default work and output directories are resolved with
os.path.abspath against the process current working directory - they depend
only on it and not on the script location - while the archiso profile source
directory is derived from the script location alone, independent of the
working directory. -/
theorem claim_C8_amended (cwd cwd2 scriptFile scriptFile2 : List (List Char)) :
    (setup_paths cwd scriptFile defaultWorkDirArg defaultOutputDirArg).work_dir
      = abspathFrom cwd defaultWorkDirArg ∧
    (setup_paths cwd scriptFile defaultWorkDirArg defaultOutputDirArg).work_dir
      = (setup_paths cwd scriptFile2 defaultWorkDirArg defaultOutputDirArg).work_dir ∧
    (setup_paths cwd scriptFile defaultWorkDirArg defaultOutputDirArg).output_dir
      = (setup_paths cwd scriptFile2 defaultWorkDirArg defaultOutputDirArg).output_dir ∧
    (setup_paths cwd scriptFile defaultWorkDirArg defaultOutputDirArg).archiso_source_dir
      = (setup_paths cwd2 scriptFile defaultWorkDirArg defaultOutputDirArg).archiso_source_dir :=
  ⟨rfl, rfl, rfl, rfl⟩

/-- C1 counterexample: on a profile source containing a .git entry and an
empty previous destination, the rsync mechanism and the remove-then-copytree
fallback end in observably different states - the fallback keeps the
version-control entry, so it is also not byte-identical to the source with
version-control metadata excluded. -/
theorem claim_C1_counterexample :
    treeLookup (rsyncMirrorCopy [([".git".toList], [1])] []) [".git".toList]
      ≠ treeLookup (copytreeReplace [([".git".toList], [1])] []) [".git".toList] ∧
    treeLookup (copytreeReplace [([".git".toList], [1])] []) [".git".toList] = some [1] := by
  refine ⟨by decide, rfl⟩

/-- C1 amended: when the profile source holds no version-control (.git)
entries and no version-control entries linger in the destination from an
earlier run, the rsync mirroring copy and the remove-then-copytree fallback
both end with the staged tree exactly equal to the source - byte-identical,
with no stale destination file surviving. In general the two mechanisms
agree only under that proviso, since the fallback copies .git entries
verbatim while rsync excludes them. -/
theorem claim_C1_amended (src dest : FileTree)
    (hsrc : ∀ e ∈ src, isExcludedPath e.1 = false)
    (hdest : ∀ e ∈ dest, isExcludedPath e.1 = false) :
    rsyncMirrorCopy src dest = src ∧ copytreeReplace src dest = src := by
  constructor
  · unfold rsyncMirrorCopy
    have h1 : src.filter (fun e => !isExcludedPath e.1) = src :=
      List.filter_eq_self.mpr (fun e he => by simp [hsrc e he])
    have h2 : dest.filter (fun e => isExcludedPath e.1) = [] :=
      List.filter_eq_nil_iff.mpr (fun e he => by simp [hdest e he])
    rw [h1, h2, List.append_nil]
  · rfl

/-- C1 witness: a concrete source and stale destination without
version-control entries, on which both staging mechanisms agree. -/
theorem claim_C1_witness :
    rsyncMirrorCopy [(["a".toList], [1])] [(["b".toList], [2])] = [(["a".toList], [1])] ∧
    copytreeReplace [(["a".toList], [1])] [(["b".toList], [2])] = [(["a".toList], [1])] :=
  claim_C1_amended [(["a".toList], [1])] [(["b".toList], [2])] (by decide) (by decide)

/-- C6: when no entry of the output directory matches the CrystalLinux-
prefix and .iso extension, the output finalizer signals failure (none),
writes no checksum sidecar and renames nothing - the directory state is
returned unchanged. -/
theorem claim_C6_no_artifact (dir : List FsEntry) (buildDate : List Char)
    (h : matchingIsos dir = []) :
    process_output_iso dir buildDate = (dir, none) := by
  unfold process_output_iso selectLatestIso
  rw [h]
  rfl

/-- C6 witness: a concrete output directory with a single non-matching
entry, on which the finalizer fails and leaves the directory unchanged. -/
theorem claim_C6_witness :
    matchingIsos [⟨"notes.txt".toList, 3, [7]⟩] = [] ∧
    process_output_iso [⟨"notes.txt".toList, 3, [7]⟩] "20251012".toList
      = ([⟨"notes.txt".toList, 3, [7]⟩], none) :=
  ⟨by decide, claim_C6_no_artifact [⟨"notes.txt".toList, 3, [7]⟩] "20251012".toList (by decide)⟩

/-- Membership is preserved by descending-mtime insertion. -/
theorem insertMtimeDesc_mem (x a : FsEntry) (l : List FsEntry) :
    a ∈ insertMtimeDesc x l ↔ a = x ∨ a ∈ l := by
  induction l with
  | nil => simp [insertMtimeDesc]
  | cons y ys ih =>
    simp only [insertMtimeDesc]
    split
    · simp only [List.mem_cons, ih]
      tauto
    · simp only [List.mem_cons]

/-- The descending-mtime sort permutes membership only. -/
theorem sortMtimeDesc_mem (a : FsEntry) (l : List FsEntry) :
    a ∈ sortMtimeDesc l ↔ a ∈ l := by
  induction l with
  | nil => simp [sortMtimeDesc]
  | cons x xs ih =>
    simp only [sortMtimeDesc, List.foldr_cons] at *
    rw [insertMtimeDesc_mem]
    simp [ih]

/-- Insertion keeps the descending-mtime order. -/
theorem insertMtimeDesc_pairwise (x : FsEntry) (l : List FsEntry)
    (h : l.Pairwise (fun a b => b.mtime ≤ a.mtime)) :
    (insertMtimeDesc x l).Pairwise (fun a b => b.mtime ≤ a.mtime) := by
  induction l with
  | nil => simp [insertMtimeDesc]
  | cons y ys ih =>
    rw [List.pairwise_cons] at h
    obtain ⟨hy, hys⟩ := h
    simp only [insertMtimeDesc]
    split
    · rename_i hgt
      rw [List.pairwise_cons]
      refine ⟨?_, ih hys⟩
      intro b hb
      rw [insertMtimeDesc_mem] at hb
      rcases hb with rfl | hb
      · omega
      · exact hy b hb
    · rename_i hle
      rw [List.pairwise_cons]
      refine ⟨?_, List.pairwise_cons.mpr ⟨hy, hys⟩⟩
      intro b hb
      rcases List.mem_cons.mp hb with rfl | hb
      · omega
      · have := hy b hb
        omega

/-- The result of the descending-mtime sort is sorted. -/
theorem sortMtimeDesc_pairwise (l : List FsEntry) :
    (sortMtimeDesc l).Pairwise (fun a b => b.mtime ≤ a.mtime) := by
  induction l with
  | nil => simp [sortMtimeDesc]
  | cons x xs ih =>
    simp only [sortMtimeDesc, List.foldr_cons] at *
    exact insertMtimeDesc_pairwise x _ ih

/-- C4: artifact discovery selects a matching entry whose modification time
is maximal among all entries matching the naming pattern; in
particular, with exactly two matching artifacts of which `b` has the newer
timestamp, discovery selects `b` in either listing order. -/
theorem claim_C4_latest_selected :
    (∀ (dir : List FsEntry) (sel : FsEntry), selectLatestIso dir = some sel →
      sel ∈ matchingIsos dir ∧ ∀ e ∈ matchingIsos dir, e.mtime ≤ sel.mtime)
    ∧ (∀ (a b : FsEntry), isoNameMatch a.name = true → isoNameMatch b.name = true →
        a.mtime < b.mtime →
        selectLatestIso [a, b] = some b ∧ selectLatestIso [b, a] = some b) := by
  constructor
  · intro dir sel hsel
    unfold selectLatestIso at hsel
    cases hl : sortMtimeDesc (matchingIsos dir) with
    | nil => rw [hl] at hsel; simp at hsel
    | cons hd tl =>
      rw [hl] at hsel
      simp only [List.head?_cons, Option.some_inj] at hsel
      subst hsel
      constructor
      · rw [← sortMtimeDesc_mem, hl]
        exact List.mem_cons_self _ _
      · intro e he
        rw [← sortMtimeDesc_mem, hl] at he
        have hp := sortMtimeDesc_pairwise (matchingIsos dir)
        rw [hl, List.pairwise_cons] at hp
        rcases List.mem_cons.mp he with rfl | he
        · exact Nat.le_refl _
        · exact hp.1 e he
  · intro a b ha hb hab
    constructor
    · simp only [selectLatestIso, matchingIsos, List.filter, ha, hb,
        sortMtimeDesc, List.foldr_cons, List.foldr_nil, insertMtimeDesc]
      rw [if_pos hab]
      rfl
    · simp only [selectLatestIso, matchingIsos, List.filter, ha, hb,
        sortMtimeDesc, List.foldr_cons, List.foldr_nil, insertMtimeDesc]
      rw [if_neg (by omega : ¬ a.mtime > b.mtime)]
      rfl

/-- C4 witness: two concrete matching artifacts, the second more recent;
discovery picks it whichever way the directory lists them. -/
theorem claim_C4_witness :
    selectLatestIso [⟨"CrystalLinux-1.iso".toList, 1, []⟩, ⟨"CrystalLinux-2.iso".toList, 2, []⟩]
      = some ⟨"CrystalLinux-2.iso".toList, 2, []⟩ ∧
    selectLatestIso [⟨"CrystalLinux-2.iso".toList, 2, []⟩, ⟨"CrystalLinux-1.iso".toList, 1, []⟩]
      = some ⟨"CrystalLinux-2.iso".toList, 2, []⟩ :=
  claim_C4_latest_selected.2 ⟨"CrystalLinux-1.iso".toList, 1, []⟩
    ⟨"CrystalLinux-2.iso".toList, 2, []⟩ (by decide) (by decide) (by decide)

/-- Concatenating the chunks of a byte list recovers the list (fueled form). -/
theorem chunksByF_flatten (m : Nat) : ∀ (fuel : Nat) (l : List Nat), l.length ≤ fuel →
    (chunksByF m fuel l).flatten = l := by
  intro fuel
  induction fuel with
  | zero =>
    intro l hl
    cases l with
    | nil => rfl
    | cons x xs => simp at hl
  | succ f ih =>
    intro l hl
    cases l with
    | nil => rfl
    | cons x xs =>
      simp only [chunksByF, List.flatten_cons]
      rw [ih (xs.drop m) (by simp only [List.length_drop]; simp at hl; omega)]
      have hdrop : xs.drop m = (x :: xs).drop (m + 1) := by
        rw [List.drop_succ_cons]
      rw [hdrop, List.take_append_drop]

/-- Concatenating the chunks of a byte list recovers the list. -/
theorem chunksBy_flatten (m : Nat) (l : List Nat) : (chunksBy m l).flatten = l :=
  chunksByF_flatten m l.length l (Nat.le_refl _)

/-- Folding the hash-update over chunks accumulates their concatenation. -/
theorem foldl_hashUpdate (l : List (List Nat)) (acc : List Nat) :
    l.foldl hashUpdate acc = acc ++ l.flatten := by
  induction l generalizing acc with
  | nil => simp
  | cons x xs ih => simp [hashUpdate, ih]

/-- The streamed digest of generate_checksum equals the digest of the whole
file hashed in one piece. -/
theorem generate_checksum_eq_sha256hex (fileBytes : List Nat) :
    generate_checksum fileBytes = sha256hex fileBytes := by
  unfold generate_checksum chunks4096
  rw [foldl_hashUpdate, List.nil_append, chunksBy_flatten]

/-- Big-endian decomposition into n bytes has length n. -/
theorem bytesBE_length (n : Nat) : ∀ v : Nat, (bytesBE n v).length = n := by
  induction n with
  | zero => intro v; rfl
  | succ k ih => intro v; simp [bytesBE, ih]

/-- Compression always returns the 8 hash words. -/
theorem compressBlock_length (h block : List Nat) : (compressBlock h block).length = 8 := rfl

/-- The 8-word hash state length is invariant under folding compression. -/
theorem foldl_compress_length (blocks : List (List Nat)) :
    ∀ h : List Nat, h.length = 8 →
    (blocks.foldl (fun acc b => compressBlock acc (toWords b)) h).length = 8 := by
  induction blocks with
  | nil => intro h hh; simpa using hh
  | cons b bs ih =>
    intro h hh
    simp only [List.foldl_cons]
    exact ih _ (compressBlock_length _ _)

/-- Serialising words four bytes each multiplies the length by four. -/
theorem flatMap_bytesBE4_length (l : List Nat) :
    (l.flatMap (bytesBE 4)).length = 4 * l.length := by
  induction l with
  | nil => rfl
  | cons x xs ih =>
    simp only [List.flatMap_cons, List.length_append, bytesBE_length, ih, List.length_cons]
    omega

/-- A SHA-256 digest is 32 bytes. -/
theorem sha256bytes_length (msg : List Nat) : (sha256bytes msg).length = 32 := by
  unfold sha256bytes
  rw [flatMap_bytesBE4_length, foldl_compress_length _ sha256H0 rfl]

/-- A byte renders as two hex characters. -/
theorem byteToHex_length (b : Nat) : (byteToHex b).length = 2 := rfl

/-- Hex rendering doubles the byte count. -/
theorem flatMap_byteToHex_length (l : List Nat) :
    (l.flatMap byteToHex).length = 2 * l.length := by
  induction l with
  | nil => rfl
  | cons x xs ih =>
    simp only [List.flatMap_cons, List.length_append, byteToHex_length, ih, List.length_cons]
    omega

/-- A SHA-256 hex digest is 64 characters. -/
theorem sha256hex_length (msg : List Nat) : (sha256hex msg).length = 64 := by
  unfold sha256hex
  rw [flatMap_byteToHex_length, sha256bytes_length]

/-- Indexing with a default yields the default or an element of the list. -/
theorem getD_eq_or_mem (l : List Char) (n : Nat) (d : Char) :
    l.getD n d = d ∨ l.getD n d ∈ l := by
  induction l generalizing n with
  | nil => left; cases n <;> rfl
  | cons x xs ih =>
    cases n with
    | zero => right; simp [List.getD_cons_zero]
    | succ k =>
      rw [List.getD_cons_succ]
      rcases ih k with h | h
      · left; exact h
      · right; exact List.mem_cons_of_mem _ h

/-- Indexing with a default that belongs to the list stays inside the list. -/
theorem getD_mem_of_mem (l : List Char) (n : Nat) (d : Char) (hd : d ∈ l) : l.getD n d ∈ l := by
  rcases getD_eq_or_mem l n d with h | h
  · rw [h]; exact hd
  · exact h

/-- Every character a byte renders to is a lowercase hex digit. -/
theorem byteToHex_mem (b : Nat) (c : Char) (hc : c ∈ byteToHex b) : c ∈ hexDigitChars := by
  simp only [byteToHex, List.mem_cons, List.not_mem_nil, or_false] at hc
  rcases hc with rfl | rfl
  · exact getD_mem_of_mem _ _ _ (by decide)
  · exact getD_mem_of_mem _ _ _ (by decide)

/-- Every character of a hex digest is a lowercase hex digit. -/
theorem sha256hex_mem_hex (msg : List Nat) (c : Char) (hc : c ∈ sha256hex msg) :
    c ∈ hexDigitChars := by
  unfold sha256hex at hc
  rw [List.mem_flatMap] at hc
  obtain ⟨b, _, hcb⟩ := hc
  exact byteToHex_mem b c hcb

/-- C3: the checksum sidecar text is exactly the digest, two spaces, the
base filename and one newline; the digest computed by streaming 4096-byte
reads equals the digest of independently hashing the whole artifact, has 64
characters, and every character is a lowercase hex digit. -/
theorem claim_C3_sidecar (isoBytes : List Nat) (basename : List Char) :
    sidecarText isoBytes basename
      = generate_checksum isoBytes ++ ' ' :: ' ' :: (basename ++ ['\n']) ∧
    generate_checksum isoBytes = sha256hex isoBytes ∧
    (generate_checksum isoBytes).length = 64 ∧
    (∀ c ∈ generate_checksum isoBytes, c ∈ hexDigitChars) := by
  refine ⟨by simp [sidecarText], generate_checksum_eq_sha256hex isoBytes, ?_, ?_⟩
  · rw [generate_checksum_eq_sha256hex]
    exact sha256hex_length isoBytes
  · intro c hc
    rw [generate_checksum_eq_sha256hex] at hc
    exact sha256hex_mem_hex isoBytes c hc

/-- C3 witness: the sidecar properties evaluated on a concrete one-byte
artifact. -/
theorem claim_C3_witness :
    generate_checksum [7] = sha256hex [7] ∧ (generate_checksum [7]).length = 64 :=
  ⟨(claim_C3_sidecar [7] []).2.1, (claim_C3_sidecar [7] []).2.2.1⟩

/-- String comparison is reflexive. -/
theorem leStr_refl (a : List Char) : leStr a a = true := by
  induction a with
  | nil => rfl
  | cons c cs ih => simp [leStr, ih]

/-- String comparison is total. -/
theorem leStr_total (a b : List Char) : leStr a b = true ∨ leStr b a = true := by
  induction a generalizing b with
  | nil => left; rfl
  | cons c cs ih =>
    cases b with
    | nil => right; rfl
    | cons d ds =>
      by_cases h1 : c.toNat < d.toNat
      · left; simp [leStr, h1]
      · by_cases h2 : d.toNat < c.toNat
        · right; simp [leStr, h2]
        · rcases ih ds with h | h
          · left; simp [leStr, h1, h2, h]
          · right; simp [leStr, h1, h2, h]

/-- String comparison is transitive. -/
theorem leStr_trans (a b c : List Char) (hab : leStr a b = true) (hbc : leStr b c = true) :
    leStr a c = true := by
  induction a generalizing b c with
  | nil => rfl
  | cons x xs ih =>
    cases b with
    | nil => simp [leStr] at hab
    | cons y ys =>
      cases c with
      | nil => simp [leStr] at hbc
      | cons z zs =>
        simp only [leStr] at hab hbc ⊢
        by_cases hxy : x.toNat < y.toNat
        · by_cases hyz : y.toNat < z.toNat
          · simp [show x.toNat < z.toNat by omega]
          · by_cases hzy : z.toNat < y.toNat
            · simp [hyz, hzy] at hbc
            · simp [show x.toNat < z.toNat by omega]
        · by_cases hyx : y.toNat < x.toNat
          · simp [hxy, hyx] at hab
          · by_cases hyz : y.toNat < z.toNat
            · simp [show x.toNat < z.toNat by omega]
            · by_cases hzy : z.toNat < y.toNat
              · simp [hyz, hzy] at hbc
              · have hxz : ¬ x.toNat < z.toNat := by omega
                have hzx : ¬ z.toNat < x.toNat := by omega
                rw [if_neg hxy, if_neg hyx] at hab
                rw [if_neg hyz, if_neg hzy] at hbc
                rw [if_neg hxz, if_neg hzx]
                exact ih ys zs hab hbc

/-- Membership is preserved by sorted-string insertion. -/
theorem insertStr_mem (x a : List Char) (l : List (List Char)) :
    a ∈ insertStr x l ↔ a = x ∨ a ∈ l := by
  induction l with
  | nil => simp [insertStr]
  | cons y ys ih =>
    simp only [insertStr]
    split
    · simp only [List.mem_cons]
    · simp only [List.mem_cons, ih]
      tauto

/-- Membership is preserved by the string sort. -/
theorem sortStrs_mem (a : List Char) (l : List (List Char)) :
    a ∈ sortStrs l ↔ a ∈ l := by
  induction l with
  | nil => simp [sortStrs]
  | cons x xs ih =>
    simp only [sortStrs, List.foldr_cons] at *
    rw [insertStr_mem]
    simp [ih]

/-- Insertion into an ascending list keeps it ascending. -/
theorem insertStr_pairwise (x : List Char) (l : List (List Char))
    (h : l.Pairwise (fun a b => leStr a b = true)) :
    (insertStr x l).Pairwise (fun a b => leStr a b = true) := by
  induction l with
  | nil => simp [insertStr]
  | cons y ys ih =>
    rw [List.pairwise_cons] at h
    obtain ⟨hy, hys⟩ := h
    simp only [insertStr]
    split
    · rename_i hxy
      rw [List.pairwise_cons]
      refine ⟨?_, List.pairwise_cons.mpr ⟨hy, hys⟩⟩
      intro b hb
      rcases List.mem_cons.mp hb with rfl | hb
      · exact hxy
      · exact leStr_trans x y b hxy (hy b hb)
    · rename_i hxy
      have hyx : leStr y x = true := (leStr_total x y).resolve_left (by simpa using hxy)
      rw [List.pairwise_cons]
      refine ⟨?_, ih hys⟩
      intro b hb
      rw [insertStr_mem] at hb
      rcases hb with rfl | hb
      · exact hyx
      · exact hy b hb

/-- The string sort produces an ascending list. -/
theorem sortStrs_pairwise (l : List (List Char)) :
    (sortStrs l).Pairwise (fun a b => leStr a b = true) := by
  induction l with
  | nil => simp [sortStrs]
  | cons x xs ih =>
    simp only [sortStrs, List.foldr_cons] at *
    exact insertStr_pairwise x _ ih

/-- Insertion of a fresh element keeps the list duplicate-free. -/
theorem insertStr_nodup (x : List Char) (l : List (List Char))
    (hx : x ∉ l) (h : l.Nodup) : (insertStr x l).Nodup := by
  induction l with
  | nil => simp [insertStr]
  | cons y ys ih =>
    rw [List.nodup_cons] at h
    obtain ⟨hy, hys⟩ := h
    simp only [List.mem_cons, not_or] at hx
    simp only [insertStr]
    split
    · rw [List.nodup_cons]
      refine ⟨?_, List.nodup_cons.mpr ⟨hy, hys⟩⟩
      simp only [List.mem_cons, not_or]
      exact ⟨hx.1, hx.2⟩
    · rw [List.nodup_cons]
      refine ⟨?_, ih hx.2 hys⟩
      rw [insertStr_mem]
      push_neg
      exact ⟨fun hyx => hx.1 hyx.symm, hy⟩

/-- The string sort keeps a list duplicate-free. -/
theorem sortStrs_nodup (l : List (List Char)) (h : l.Nodup) : (sortStrs l).Nodup := by
  induction l with
  | nil => simp [sortStrs]
  | cons x xs ih =>
    rw [List.nodup_cons] at h
    have hx : x ∉ sortStrs xs := fun hmem => h.1 ((sortStrs_mem x xs).mp hmem)
    have hstep : sortStrs (x :: xs) = insertStr x (sortStrs xs) := rfl
    rw [hstep]
    exact insertStr_nodup x _ hx (ih h.2)

/-- Sorting an already ascending list changes nothing. -/
theorem sortStrs_eq_self_of_pairwise (l : List (List Char))
    (h : l.Pairwise (fun a b => leStr a b = true)) : sortStrs l = l := by
  induction l with
  | nil => rfl
  | cons x xs ih =>
    rw [List.pairwise_cons] at h
    simp only [sortStrs, List.foldr_cons] at *
    rw [ih h.2]
    cases xs with
    | nil => rfl
    | cons y ys =>
      simp only [insertStr]
      rw [if_pos (h.1 y (List.mem_cons_self y ys))]

/-- Deduplication preserves membership. -/
theorem dedupLines_mem (a : List Char) (l : List (List Char)) :
    a ∈ dedupLines l ↔ a ∈ l := by
  induction l with
  | nil => simp [dedupLines]
  | cons x xs ih =>
    simp only [dedupLines]
    split
    · rename_i hx
      rw [ih]
      simp only [List.mem_cons]
      constructor
      · exact Or.inr
      · rintro (rfl | h)
        · exact hx
        · exact h
    · simp only [List.mem_cons, ih]

/-- Deduplication yields a duplicate-free list. -/
theorem dedupLines_nodup (l : List (List Char)) : (dedupLines l).Nodup := by
  induction l with
  | nil => simp [dedupLines]
  | cons x xs ih =>
    simp only [dedupLines]
    split
    · exact ih
    · rename_i hx
      rw [List.nodup_cons, dedupLines_mem]
      exact ⟨hx, ih⟩

/-- Deduplicating a duplicate-free list changes nothing. -/
theorem dedupLines_eq_self_of_nodup (l : List (List Char)) (h : l.Nodup) :
    dedupLines l = l := by
  induction l with
  | nil => rfl
  | cons x xs ih =>
    rw [List.nodup_cons] at h
    simp only [dedupLines]
    rw [if_neg h.1, ih h.2]

/-- Newline splitting never yields an empty chunk list. -/
theorem splitOnNl_ne_nil (s : List Char) : splitOnNl s ≠ [] := by
  cases s with
  | nil => simp [splitOnNl]
  | cons c cs =>
    simp only [splitOnNl]
    split
    · simp
    · split <;> simp

/-- No chunk produced by newline splitting contains a newline. -/
theorem splitOnNl_mem_no_nl (s : List Char) (c : List Char) (hc : c ∈ splitOnNl s) :
    '\n' ∉ c := by
  induction s generalizing c with
  | nil =>
    simp only [splitOnNl, List.mem_singleton] at hc
    subst hc
    exact List.not_mem_nil _
  | cons a as ih =>
    simp only [splitOnNl] at hc
    by_cases ha : a = '\n'
    · rw [if_pos ha] at hc
      rcases List.mem_cons.mp hc with rfl | hc
      · exact List.not_mem_nil _
      · exact ih c hc
    · rw [if_neg ha] at hc
      cases hr : splitOnNl as with
      | nil => exact absurd hr (splitOnNl_ne_nil as)
      | cons h t =>
        rw [hr] at hc
        rcases List.mem_cons.mp hc with rfl | hc
        · intro hmem
          rcases List.mem_cons.mp hmem with heq | hmem
          · exact ha heq.symm
          · have : h ∈ splitOnNl as := by rw [hr]; exact List.mem_cons_self h t
            exact ih h this hmem
        · have : c ∈ splitOnNl as := by rw [hr]; exact List.mem_cons_of_mem h hc
          exact ih c this

/-- Splitting a text that opens with a newline-free chunk then a newline
peels off exactly that chunk. -/
theorem splitOnNl_append_nl (l rest : List Char) (hl : '\n' ∉ l) :
    splitOnNl (l ++ '\n' :: rest) = l :: splitOnNl rest := by
  induction l with
  | nil => simp [splitOnNl]
  | cons c cs ih =>
    have hc : c ≠ '\n' := fun h => hl (h ▸ List.mem_cons_self c cs)
    have hcs : '\n' ∉ cs := fun h => hl (List.mem_cons_of_mem c h)
    simp only [List.cons_append, splitOnNl, List.append_eq]
    rw [if_neg hc, ih hcs]

/-- Every chunk of pySplitlines is a chunk of the raw newline split. -/
theorem pySplitlines_subset (s : List Char) (c : List Char) (hc : c ∈ pySplitlines s) :
    c ∈ splitOnNl s := by
  unfold pySplitlines at hc
  split at hc
  · simp at hc
  · split at hc
    · exact (List.dropLast_sublist _).subset hc
    · exact hc

/-- Dropping a satisfied run twice is the same as dropping it once. -/
theorem dropWhile_idem (p : Char → Bool) (l : List Char) :
    (l.dropWhile p).dropWhile p = l.dropWhile p := by
  induction l with
  | nil => rfl
  | cons x xs ih =>
    by_cases h : p x
    · simp [List.dropWhile_cons, h, ih]
    · simp [List.dropWhile_cons, h]

/-- The first element surviving dropWhile does not satisfy the predicate. -/
theorem dropWhile_head_not (p : Char → Bool) (l : List Char) (x : Char) (t : List Char)
    (h : l.dropWhile p = x :: t) : p x = false := by
  induction l with
  | nil => simp at h
  | cons y ys ih =>
    by_cases hy : p y
    · rw [List.dropWhile_cons, if_pos hy] at h
      exact ih h
    · rw [List.dropWhile_cons, if_neg hy] at h
      injection h with h1 h2
      subst h1
      simpa using hy

/-- dropWhile yields a suffix of its input. -/
theorem dropWhile_isSuffix (p : Char → Bool) (l : List Char) :
    l.dropWhile p <:+ l := by
  induction l with
  | nil => simp
  | cons x xs ih =>
    by_cases h : p x
    · rw [List.dropWhile_cons, if_pos h]
      exact ih.trans (List.suffix_cons x xs)
    · rw [List.dropWhile_cons, if_neg h]

/-- The last element of an append with nonempty right part comes from it. -/
theorem getLast?_append_right (l1 l2 : List Char) (h : l2 ≠ []) :
    (l1 ++ l2).getLast? = l2.getLast? := by
  rw [← List.head?_reverse, ← List.head?_reverse l2, List.reverse_append]
  exact List.head?_append_of_ne_nil _ (by simpa using h)

/-- Stripping is idempotent. -/
theorem stripChars_idem (s : List Char) : stripChars (stripChars s) = stripChars s := by
  unfold stripChars
  generalize hu : s.dropWhile Char.isWhitespace = u
  generalize hv : u.reverse.dropWhile Char.isWhitespace = v
  have hB : v.reverse.dropWhile Char.isWhitespace = v.reverse := by
    cases hvr : v.reverse with
    | nil => rfl
    | cons y ys =>
      have hvne : v ≠ [] := by
        intro hx
        rw [hx, List.reverse_nil] at hvr
        exact List.noConfusion hvr
      have hvlast : v.getLast? = some y := by
        rw [← List.head?_reverse, hvr, List.head?_cons]
      have hsuf : v <:+ u.reverse := hv ▸ dropWhile_isSuffix Char.isWhitespace u.reverse
      obtain ⟨w, hw⟩ := hsuf
      have hulast : u.reverse.getLast? = some y := by
        rw [← hw, getLast?_append_right w v hvne, hvlast]
      have huhead : u.head? = some y := by
        have hrr := List.head?_reverse u.reverse
        rw [List.reverse_reverse] at hrr
        rw [hrr, hulast]
      have hyws : Char.isWhitespace y = false := by
        cases hue : u with
        | nil => rw [hue] at huhead; exact absurd huhead (by simp)
        | cons a t =>
          rw [hue, List.head?_cons, Option.some_inj] at huhead
          subst huhead
          exact dropWhile_head_not Char.isWhitespace s a t (by rw [hu, hue])
      rw [List.dropWhile_cons, if_neg (by simp [hyws])]
  rw [hB, List.reverse_reverse, ← hv, dropWhile_idem, hv]

/-- Every character surviving a strip was in the original text. -/
theorem stripChars_subset (s : List Char) (c : Char) (hc : c ∈ stripChars s) : c ∈ s := by
  unfold stripChars at hc
  rw [List.mem_reverse] at hc
  have h1 := (dropWhile_isSuffix Char.isWhitespace _).subset hc
  rw [List.mem_reverse] at h1
  exact (dropWhile_isSuffix Char.isWhitespace s).subset h1

/-- Membership in the stripped non-blank line list, characterised. -/
theorem stripNonEmptyLines_mem (s : List Char) (l : List Char) :
    l ∈ stripNonEmptyLines s ↔ (l ≠ [] ∧ ∃ m ∈ pySplitlines s, stripChars m = l) := by
  unfold stripNonEmptyLines
  simp only [List.mem_filter, List.mem_map, decide_not, Bool.not_eq_eq_eq_not,
    Bool.not_true, decide_eq_false_iff_not]
  constructor
  · rintro ⟨⟨m, hm, rfl⟩, hne⟩
    exact ⟨hne, m, hm, rfl⟩
  · rintro ⟨hne, m, hm, rfl⟩
    exact ⟨⟨m, hm, rfl⟩, hne⟩

/-- The final line list keeps exactly the stripped non-blank lines. -/
theorem formatLines_mem (s : List Char) (l : List Char) :
    l ∈ formatLines s ↔ l ∈ stripNonEmptyLines s := by
  unfold formatLines
  rw [sortStrs_mem, dedupLines_mem]

/-- No output line is blank. -/
theorem formatLines_ne_nil (s : List Char) (l : List Char) (hl : l ∈ formatLines s) :
    l ≠ [] :=
  ((stripNonEmptyLines_mem s l).mp ((formatLines_mem s l).mp hl)).1

/-- Every output line is already stripped. -/
theorem formatLines_strip (s : List Char) (l : List Char) (hl : l ∈ formatLines s) :
    stripChars l = l := by
  obtain ⟨hne, m, hm, rfl⟩ := (stripNonEmptyLines_mem s l).mp ((formatLines_mem s l).mp hl)
  exact stripChars_idem m

/-- No output line contains a newline. -/
theorem formatLines_no_nl (s : List Char) (l : List Char) (hl : l ∈ formatLines s) :
    '\n' ∉ l := by
  obtain ⟨hne, m, hm, rfl⟩ := (stripNonEmptyLines_mem s l).mp ((formatLines_mem s l).mp hl)
  intro hmem
  exact splitOnNl_mem_no_nl s m (pySplitlines_subset s m hm) (stripChars_subset m _ hmem)

/-- The output lines are duplicate-free. -/
theorem formatLines_nodup (s : List Char) : (formatLines s).Nodup :=
  sortStrs_nodup _ (dedupLines_nodup _)

/-- The output lines are ascending. -/
theorem formatLines_pairwise (s : List Char) :
    (formatLines s).Pairwise (fun a b => leStr a b = true) :=
  sortStrs_pairwise _

/-- Splitting the rejoined lines recovers them, plus the final empty chunk. -/
theorem splitOnNl_joinNl (L : List (List Char)) (hL : L ≠ []) (hnl : ∀ l ∈ L, '\n' ∉ l) :
    splitOnNl (joinNl L ++ ['\n']) = L ++ [[]] := by
  induction L with
  | nil => exact absurd rfl hL
  | cons l ls ih =>
    cases ls with
    | nil =>
      show splitOnNl (l ++ ['\n']) = [l, []]
      rw [splitOnNl_append_nl l [] (hnl l (List.mem_cons_self _ _))]
      rfl
    | cons l2 ls2 =>
      show splitOnNl ((l ++ '\n' :: joinNl (l2 :: ls2)) ++ ['\n']) = (l :: l2 :: ls2) ++ [[]]
      rw [List.append_assoc, List.cons_append]
      rw [splitOnNl_append_nl l _ (hnl l (List.mem_cons_self _ _))]
      rw [ih (by simp) (fun x hx => hnl x (List.mem_cons_of_mem _ hx))]
      rfl

/-- The embedded splitlines inverts the rejoining of newline-free lines. -/
theorem pySplitlines_joinNl (L : List (List Char)) (hL : L ≠ [])
    (hnl : ∀ l ∈ L, '\n' ∉ l) :
    pySplitlines (joinNl L ++ ['\n']) = L := by
  unfold pySplitlines
  rw [if_neg (by simp), if_pos (by rw [List.getLast?_concat])]
  rw [splitOnNl_joinNl L hL hnl, List.dropLast_concat]

/-- The line list of a formatted file is the line list of the original. -/
theorem formatLines_formatContent (s : List Char) :
    formatLines (formatContent s) = formatLines s := by
  unfold formatContent
  cases hL : formatLines s with
  | nil => decide
  | cons l0 ls =>
    have hnl : ∀ l ∈ l0 :: ls, '\n' ∉ l := fun l hl => formatLines_no_nl s l (hL ▸ hl)
    have hne : ∀ l ∈ l0 :: ls, l ≠ [] := fun l hl => formatLines_ne_nil s l (hL ▸ hl)
    have hstrip : ∀ l ∈ l0 :: ls, stripChars l = l := fun l hl => formatLines_strip s l (hL ▸ hl)
    have hnd : (l0 :: ls).Nodup := hL ▸ formatLines_nodup s
    have hpw : (l0 :: ls).Pairwise (fun a b => leStr a b = true) := hL ▸ formatLines_pairwise s
    unfold formatLines stripNonEmptyLines
    rw [pySplitlines_joinNl _ (by simp) hnl]
    have hmap : (l0 :: ls).map stripChars = (l0 :: ls).map id := List.map_congr_left hstrip
    rw [hmap, List.map_id]
    rw [List.filter_eq_self.mpr (fun a ha => by simpa using hne a ha)]
    rw [dedupLines_eq_self_of_nodup _ hnd, sortStrs_eq_self_of_pairwise _ hpw]

/-- C10: the format operation is idempotent on file contents - the formatted
form is a fixed point of formatting. -/
theorem claim_C10_idempotent (s : List Char) :
    formatContent (formatContent s) = formatContent s := by
  show joinNl (formatLines (formatContent s)) ++ ['\n'] = formatContent s
  rw [formatLines_formatContent s]
  rfl

/-- C5: the format utility reports file-not-found on a missing file and
leaves nothing written; on the concrete input lines b, a, b, blank, a it
rewrites the file to exactly the two sorted lines a and b with a trailing
newline; and in general the rewritten lines are strictly ascending, contain
no blank line, and are exactly the stripped non-blank lines of the input. -/
theorem claim_C5_format :
    format_packages none = (none, false) ∧
    format_packages (some "b\na\nb\n\na".toList) = (some "a\nb\n".toList, true) ∧
    ∀ s : List Char,
      (formatLines s).Pairwise (fun a b => leStr a b = true ∧ a ≠ b) ∧
      [] ∉ formatLines s ∧
      ∀ l : List Char, (l ∈ formatLines s ↔ l ∈ stripNonEmptyLines s) := by
  refine ⟨rfl, by decide, ?_⟩
  intro s
  refine ⟨?_, ?_, fun l => formatLines_mem s l⟩
  · exact (formatLines_pairwise s).and (formatLines_nodup s)
  · intro hmem
    exact formatLines_ne_nil s [] hmem rfl

/-- C5 witness: the concrete rewrite evaluated through the claim theorem. -/
theorem claim_C5_witness :
    format_packages (some "b\na\nb\n\na".toList) = (some "a\nb\n".toList, true) :=
  claim_C5_format.2.1

set_option maxRecDepth 10000

/-- The embedded hash reproduces the FIPS 180-4 digest of the empty message. -/
theorem sha256hex_empty_vector :
    sha256hex [] =
      "e3b0c44298fc1c149afbf4c8996fb92427ae41e4649b934ca495991b7852b855".toList := by
  decide

/-- The embedded hash reproduces the FIPS 180-4 digest of the message abc. -/
theorem sha256hex_abc_vector :
    sha256hex ("abc".toList.map Char.toNat) =
      "ba7816bf8f01cfea414140de5dae2223b00361a396177a9cb410ff61f20015ad".toList := by
  decide
